import Mathlib

/-!
Verification of the `wt` worktree manager's catalog, reconciler, selector
and workflows, shallowly embedded from the Go sources.

* Catalog rows and operations follow `internal/db/worktree.go` and
  `internal/db/repo.go` (SQLite tables become lists of rows; SQL
  `CURRENT_TIMESTAMP` becomes an explicit `now : Nat` argument).
* The reconciler follows `syncWorktrees` / `syncAllRepos` in `cmd/root.go`.
* The selector follows `internal/ui/picker.go`.
* The add/remove workflows follow `cmd/root.go` (`deleteWorktree`,
  `runRemove`) and the add command file (`runAddWithBranchFromRepo`);
  external git subprocess calls become an explicit trace of `GitCall`s,
  with their success or failure supplied as boolean parameters.
-/

/-- A row of the `worktrees` table (`internal/db/worktree.go`, type `Worktree`):
unique path, owning repo id, branch, main flag, created/deleted timestamps.
`deletedAt = none` means the row is live; `some t` is the tombstone. -/
structure WorktreeRow where
  id : Nat
  repoId : Nat
  path : String
  branch : String
  isMain : Bool
  createdAt : Nat
  deletedAt : Option Nat
  deriving Repr, DecidableEq

/-- The `worktrees` table. -/
abbrev Catalog := List WorktreeRow

/-- Fresh row id for an insert (autoincrement primary key). -/
def freshWorktreeId (c : Catalog) : Nat :=
  (c.map (·.id)).foldr Nat.max 0 + 1

/-- `UpsertWorktree` (`internal/db/worktree.go`): `INSERT ... ON CONFLICT(path)
DO UPDATE SET repo_id = excluded.repo_id, branch = excluded.branch,
is_main = excluded.is_main, deleted_at = NULL`.  On a path conflict every
mutable field is overwritten and the tombstone is cleared; otherwise a fresh
live row is appended. -/
def UpsertWorktree (now rid : Nat) (p b : String) (mn : Bool) (c : Catalog) : Catalog :=
  if ∃ r ∈ c, r.path = p then
    c.map (fun r =>
      if r.path = p then
        { r with repoId := rid, branch := b, isMain := mn, deletedAt := none }
      else r)
  else
    c ++ [{ id := freshWorktreeId c, repoId := rid, path := p, branch := b,
            isMain := mn, createdAt := now, deletedAt := none }]

/-- `SoftDeleteWorktree` (`internal/db/worktree.go`):
`UPDATE worktrees SET deleted_at = CURRENT_TIMESTAMP WHERE id = ?`. -/
def SoftDeleteWorktree (now wid : Nat) (c : Catalog) : Catalog :=
  c.map (fun r => if r.id = wid then { r with deletedAt := some now } else r)

/-- `SoftDeleteWorktreeByPath` (`internal/db/worktree.go`):
`UPDATE worktrees SET deleted_at = CURRENT_TIMESTAMP WHERE path = ?`. -/
def SoftDeleteWorktreeByPath (now : Nat) (p : String) (c : Catalog) : Catalog :=
  c.map (fun r => if r.path = p then { r with deletedAt := some now } else r)

/-- `SoftDeleteMissingWorktrees` (`internal/db/worktree.go`): tombstone every
live row of the repository whose path is not in `keep`; the Go code special
cases an empty `keep` (SQL cannot express `NOT IN ()`) by tombstoning every
live row of the repository. -/
def SoftDeleteMissingWorktrees (now rid : Nat) (keep : List String) (c : Catalog) : Catalog :=
  if keep.isEmpty then
    c.map (fun r =>
      if r.repoId = rid ∧ r.deletedAt = none then { r with deletedAt := some now } else r)
  else
    c.map (fun r =>
      if r.repoId = rid ∧ r.deletedAt = none ∧ ¬ r.path ∈ keep then
        { r with deletedAt := some now }
      else r)

/-- `GetWorktreeByPath` (`internal/db/worktree.go`): point lookup of a live
row by path (`WHERE w.path = ? AND w.deleted_at IS NULL`). -/
def GetWorktreeByPath (c : Catalog) (p : String) : Option WorktreeRow :=
  (c.filter (fun r => decide (r.path = p ∧ r.deletedAt = none))).head?

/-- One record of `git worktree list --porcelain` as parsed by
`internal/git` (`WorktreeInfo`): bare entries are already excluded and the
first record carries the main flag. -/
structure GitWorktree where
  path : String
  branch : String
  isMain : Bool
  deriving Repr, DecidableEq

/-- The upsert loop of `syncWorktrees` (`cmd/root.go`): each listed worktree
is upserted in order, all owned by the repository being synced. -/
def applyUpserts (now rid : Nat) (listing : List GitWorktree) (c : Catalog) : Catalog :=
  listing.foldl (fun acc g => UpsertWorktree now rid g.path g.branch g.isMain acc) c

/-- `syncWorktrees` (`cmd/root.go`): upsert every entry of the live listing,
then soft-delete the repository's rows whose paths were not observed
(`existingPaths` is accumulated as exactly the listing's paths). -/
def syncWorktrees (now rid : Nat) (listing : List GitWorktree) (c : Catalog) : Catalog :=
  SoftDeleteMissingWorktrees now rid (listing.map (·.path)) (applyUpserts now rid listing c)

/-- The live (non-tombstoned) paths the catalog holds for a repository. -/
def nonDeletedPathsFor (rid : Nat) (c : Catalog) : List String :=
  (c.filter (fun r => decide (r.repoId = rid ∧ r.deletedAt = none))).map (·.path)

/-- The catalog holds a live row for path `p` owned by repository `rid`. -/
def HasLive (rid : Nat) (p : String) (c : Catalog) : Prop :=
  ∃ r, r ∈ c ∧ r.path = p ∧ r.repoId = rid ∧ r.deletedAt = none

/-- Every row for `g.path` agrees with the listing entry `g` (owned by
`rid`, same branch and main flag, live). -/
def RowsMatch (rid : Nat) (g : GitWorktree) (c : Catalog) : Prop :=
  ∀ r ∈ c, r.path = g.path →
    r.repoId = rid ∧ r.branch = g.branch ∧ r.isMain = g.isMain ∧ r.deletedAt = none

/-- A row of the `repos` table (`internal/db/repo.go`, type `Repo`). -/
structure RepoRow where
  id : Nat
  path : String
  name : String
  worktreesDir : String
  lastSyncedAt : Option Nat
  createdAt : Nat
  deletedAt : Option Nat
  deriving Repr, DecidableEq

/-- The two tables of the persisted catalog (`internal/db`). -/
structure DB where
  repos : List RepoRow
  worktrees : Catalog
  deriving Repr, DecidableEq

/-- `UpdateLastSynced` (`internal/db/repo.go`):
`UPDATE repos SET last_synced_at = CURRENT_TIMESTAMP WHERE id = ?`. -/
def UpdateLastSynced (now rid : Nat) (repos : List RepoRow) : List RepoRow :=
  repos.map (fun r => if r.id = rid then { r with lastSyncedAt := some now } else r)

/-- `UpdateLastSynced` viewed as an operation on the whole database: it only
touches the `repos` table. -/
def UpdateLastSyncedDB (now rid : Nat) (db : DB) : DB :=
  { db with repos := UpdateLastSynced now rid db.repos }

/-- Stable insertion into a list sorted by `lt` (strict comparison, so an
element is inserted after the elements it compares equal to). -/
def insertSorted (lt : α → α → Bool) (x : α) : List α → List α
  | [] => [x]
  | y :: ys => if lt x y then x :: y :: ys else y :: insertSorted lt x ys

/-- Stable sort by a strict comparison, used to model SQL `ORDER BY` clauses
and the fuzzy matcher's best-score-first ordering. -/
def sortByLt (lt : α → α → Bool) : List α → List α
  | [] => []
  | x :: xs => insertSorted lt x (sortByLt lt xs)

/-- Lexicographic comparison of character lists, modelling SQLite's text
ordering for `ORDER BY`. -/
def charListLt : List Char → List Char → Bool
  | [], [] => false
  | [], _ :: _ => true
  | _ :: _, [] => false
  | a :: as, b :: bs => if a < b then true else if b < a then false else charListLt as bs

/-- Lexicographic string comparison (SQLite text ordering). -/
def strLt (a b : String) : Bool :=
  charListLt a.toList b.toList

/-- `ListRepos` (`internal/db/repo.go`): every non-deleted repository,
`ORDER BY name`. -/
def ListRepos (db : DB) : List RepoRow :=
  sortByLt (fun a b => strLt a.name b.name) (db.repos.filter (fun r => decide (r.deletedAt = none)))

/-- The repos table holds some row with id `rid`. -/
def HasRepoId (rid : Nat) (repos : List RepoRow) : Prop :=
  ∃ r, r ∈ repos ∧ r.id = rid

/-- The repos table records repository `rid` as last synced at `now`. -/
def SyncedAt (rid now : Nat) (repos : List RepoRow) : Prop :=
  ∃ r, r ∈ repos ∧ r.id = rid ∧ r.lastSyncedAt = some now

/-- Result of a whole `syncAllRepos` pass: the updated database, the warnings
printed for repositories whose sync failed, and the trace of repositories for
which a live listing was requested (i.e. on which `syncWorktrees` was
invoked). -/
structure SyncAllResult where
  db : DB
  warnings : List String
  attempted : List String
  deriving Repr, DecidableEq

/-- One iteration of the loop in `syncAllRepos` (`cmd/root.go`): ask git for
the repository's live listing; on failure record a warning and continue, on
success reconcile the worktrees table and refresh the repository's
last-synced timestamp. -/
def syncRepoStep (listings : String → Except String (List GitWorktree)) (now : Nat)
    (acc : SyncAllResult) (repo : RepoRow) : SyncAllResult :=
  match listings repo.path with
  | .error e =>
      { acc with
        warnings := acc.warnings ++ ["warning: failed to sync " ++ repo.name ++ ": " ++ e],
        attempted := acc.attempted ++ [repo.path] }
  | .ok listing =>
      { db := { repos := UpdateLastSynced now repo.id acc.db.repos,
                worktrees := syncWorktrees now repo.id listing acc.db.worktrees },
        warnings := acc.warnings,
        attempted := acc.attempted ++ [repo.path] }

/-- The fold performed by `syncAllRepos` over every non-deleted repository. -/
def syncAllResult (listings : String → Except String (List GitWorktree)) (now : Nat)
    (db : DB) : SyncAllResult :=
  (ListRepos db).foldl (syncRepoStep listings now) ⟨db, [], []⟩

/-- `syncAllRepos` (`cmd/root.go`): iterate every repository; per-repository
failures are demoted to warnings, so the function itself always returns
without an aborting error. -/
def syncAllRepos (listings : String → Except String (List GitWorktree)) (now : Nat)
    (db : DB) : Except String SyncAllResult :=
  .ok (syncAllResult listings now db)

/-- A worktree as handed to the selector and the workflows: a catalog row
joined with its repository's name and path (`db.Worktree` with the joined
fields populated). -/
structure Wt where
  id : Nat
  repoId : Nat
  path : String
  branch : String
  isMain : Bool
  repoName : String
  repoPath : String
  deriving Repr, DecidableEq, Inhabited

/-- `PickerAction` (`internal/ui/picker.go`). -/
inductive PickerAction where
  | none
  | switch
  | add
  | back
  | delete
  deriving Repr, DecidableEq

/-- `formatWorktreeLabel` (`internal/ui/picker.go`): `repo/branch`, with a
literal `" [main]"` suffix for the main worktree. -/
def formatWorktreeLabel (wt : Wt) : String :=
  wt.repoName ++ "/" ++ wt.branch ++ (if wt.isMain then " [main]" else "")

/-- `worktreeStrings` (`internal/ui/picker.go`): the composite searchable
label `"{repo}/{branch}[ [main]] {path}"` for each item. -/
def worktreeStrings (ws : List Wt) : List String :=
  ws.map (fun wt => formatWorktreeLabel wt ++ " " ++ wt.path)

/-- Modelled from the spec: the fuzzy matcher's greedy subsequence search
(the `sahilm/fuzzy` library is an external collaborator whose source is not
part of this repository; the spec fixes only its output contract — a string
matches iff it contains the query's characters in order).  Returns the
positions at which the query's characters match, `offset` being the position
of the first character of `s`. -/
def subseqPositions (q s : List Char) (offset : Nat) : Option (List Nat) :=
  match q, s with
  | [], _ => some []
  | _ :: _, [] => none
  | c :: qs, d :: ss =>
      if c = d then (subseqPositions qs ss (offset + 1)).map (offset :: ·)
      else subseqPositions (c :: qs) ss (offset + 1)

/-- Modelled from the spec: a simple match score rewarding consecutive
matched positions (the spec leaves the exact scoring weights open, requiring
only some ordered-subsequence scorer). -/
def adjacencyScore : List Nat → Int
  | [] => 0
  | [_] => 0
  | a :: b :: rest => (if b = a + 1 then 1 else 0) + adjacencyScore (b :: rest)

/-- One fuzzy match (`fuzzy.Match` of the matcher's output contract): the
index of the matched string, the string, the matched character positions and
the score. -/
structure FuzzyMatch where
  index : Nat
  str : String
  matchedIndexes : List Nat
  score : Int
  deriving Repr, DecidableEq

/-- Modelled from the spec: scan the candidate strings in order, keeping
those that contain the query as a subsequence, numbering them from `i`. -/
def fuzzyFindAux (query : String) : List String → Nat → List FuzzyMatch
  | [], _ => []
  | s :: rest, i =>
      match subseqPositions query.toList s.toList 0 with
      | some ps => { index := i, str := s, matchedIndexes := ps,
                     score := adjacencyScore ps } :: fuzzyFindAux query rest (i + 1)
      | none => fuzzyFindAux query rest (i + 1)

/-- Modelled from the spec: `fuzzy.Find` — the matching candidates ordered
best-score-first, ties broken by original order (stable sort). -/
def fuzzyFind (query : String) (strs : List String) : List FuzzyMatch :=
  sortByLt (fun a b => decide (b.score < a.score)) (fuzzyFindAux query strs 0)

/-- `pickerModel` (`internal/ui/picker.go`): the selector's state.  The
bubbletea text input is represented by its value, `query`. -/
structure PickerModel where
  worktrees : List Wt
  filtered : List Nat
  matchList : Option (List FuzzyMatch)
  cursor : Nat
  query : String
  action : PickerAction
  quitting : Bool
  height : Nat
  deriving Repr, DecidableEq

/-- `newPickerModel` (`internal/ui/picker.go`): initial state, with
`filtered` the identity mapping over the full list. -/
def newPickerModel (ws : List Wt) : PickerModel :=
  { worktrees := ws
    filtered := List.range ws.length
    matchList := none
    cursor := 0
    query := ""
    action := .none
    quitting := false
    height := 10 }

/-- First half of `updateFilter` (`internal/ui/picker.go`): recompute
`filtered` from the current query — the identity mapping for an empty query,
the fuzzy matcher's indices otherwise. -/
def recomputeFiltered (m : PickerModel) : PickerModel :=
  if m.query = "" then
    { m with filtered := List.range m.worktrees.length, matchList := none }
  else
    let ms := fuzzyFind m.query (worktreeStrings m.worktrees)
    { m with matchList := some ms, filtered := ms.map (·.index) }

/-- Second half of `updateFilter`: `if m.cursor >= len(m.filtered)
{ m.cursor = max(0, len(m.filtered)-1) }`. -/
def clampCursor (m : PickerModel) : PickerModel :=
  if m.filtered.length ≤ m.cursor then
    { m with cursor := max 0 (m.filtered.length - 1) }
  else m

/-- `updateFilter` (`internal/ui/picker.go`): recompute the filtered index
list, then clamp the cursor back into range. -/
def updateFilter (m : PickerModel) : PickerModel :=
  clampCursor (recomputeFiltered m)

/-- The messages `pickerModel.Update` dispatches on: one constructor per
`case` arm of the key switch (`KeyCtrlC`/`KeyEsc` cancel; `KeyTab` add;
`KeyCtrlD` delete; `KeyEnter` confirm; `KeyUp`/`KeyCtrlP` up;
`KeyDown`/`KeyCtrlN` down), plus window resizes and every other keystroke,
which reaches the text input and leaves it with a new value. -/
inductive PickerMsg where
  | keyCancel
  | keyTab
  | keyDel
  | keyEnter
  | keyUp
  | keyDown
  | keyEdit (value : String)
  | windowSize (h : Nat)
  deriving Repr, DecidableEq

/-- `pickerModel.Update` (`internal/ui/picker.go`).  Out-of-range list
indexing (impossible in reachable states, where the cursor invariant holds)
is rendered with `getD`. -/
def PickerModel.update (m : PickerModel) (msg : PickerMsg) : PickerModel :=
  match msg with
  | .windowSize h => { m with height := min (h - 3) 20 }
  | .keyCancel => { m with action := .none, quitting := true }
  | .keyTab => { m with action := .add, quitting := true }
  | .keyDel =>
      if 0 < m.filtered.length then
        let idx := m.filtered.getD m.cursor 0
        let wt := m.worktrees.getD idx default
        if wt.isMain then m
        else { m with action := .delete, quitting := true }
      else m
  | .keyEnter =>
      if 0 < m.filtered.length then { m with action := .switch, quitting := true }
      else updateFilter m
  | .keyUp => if 0 < m.cursor then { m with cursor := m.cursor - 1 } else m
  | .keyDown =>
      if m.cursor < m.filtered.length - 1 then { m with cursor := m.cursor + 1 } else m
  | .keyEdit v => updateFilter { m with query := v }

/-- The selector states reachable from the initial model for a given item
list, under any sequence of input messages. -/
inductive PickerReachable (ws : List Wt) : PickerModel → Prop
  | start : PickerReachable ws (newPickerModel ws)
  | step (m : PickerModel) (msg : PickerMsg) :
      PickerReachable ws m → PickerReachable ws (m.update msg)

/-- `PickerResult` (`internal/ui/picker.go`). -/
structure PickerResult where
  action : PickerAction
  worktree : Option Wt
  deriving Repr, DecidableEq

/-- `PickWorktree` (`internal/ui/picker.go`): an empty item list short
circuits to the Add action; otherwise the interactive loop (abstracted as
`runLoop`, the bubbletea program run) produces a final model, from which the
selected worktree is read off when the action needs one. -/
def PickWorktree (worktrees : List Wt) (runLoop : PickerModel → PickerModel) : PickerResult :=
  if worktrees.length = 0 then
    { action := .add, worktree := none }
  else
    let result := runLoop (newPickerModel worktrees)
    if (result.action = .switch ∨ result.action = .delete ∨ result.action = .add)
        ∧ 0 < result.filtered.length then
      { action := result.action,
        worktree := some (result.worktrees.getD (result.filtered.getD result.cursor 0) default) }
    else
      { action := result.action, worktree := none }

/-- A git mutation subprocess call (`internal/git`), recorded as a trace so
theorems can state which external mutations a workflow performed. -/
inductive GitCall where
  | removeWorktree (path : String)
  | removeWorktreeForce (path : String)
  | addWorktreeTier1 (target : String)
  | addWorktreeTier2 (target : String)
  | addWorktreeTier3 (target : String)
  deriving Repr, DecidableEq

/-- How a remove/delete run ends. -/
inductive RemoveOutcome where
  | rejectedMain
  | cancelled
  | removed
  | failed
  deriving Repr, DecidableEq

/-- Result of a remove/delete run: outcome, the trace of git removal calls
made, and the catalog afterwards. -/
structure RemoveRun where
  outcome : RemoveOutcome
  gitCalls : List GitCall
  catalog : Catalog
  deriving Repr, DecidableEq

/-- `deleteWorktree` (`cmd/root.go`), the inline delete invoked from the
selector loop: reject the main worktree, ask for confirmation, try
`git worktree remove`, and on its failure automatically retry with
`--force`; tombstone the row only after a successful removal.  The user's
confirmation and the success of each git call are parameters. -/
def deleteWorktreeRun (confirmed removeOk forceOk : Bool) (wt : Wt) (now : Nat)
    (c : Catalog) : RemoveRun :=
  if wt.isMain then
    { outcome := .rejectedMain, gitCalls := [], catalog := c }
  else if !confirmed then
    { outcome := .cancelled, gitCalls := [], catalog := c }
  else if removeOk then
    { outcome := .removed, gitCalls := [.removeWorktree wt.path],
      catalog := SoftDeleteWorktree now wt.id c }
  else if forceOk then
    { outcome := .removed, gitCalls := [.removeWorktree wt.path, .removeWorktreeForce wt.path],
      catalog := SoftDeleteWorktree now wt.id c }
  else
    { outcome := .failed, gitCalls := [.removeWorktree wt.path, .removeWorktreeForce wt.path],
      catalog := c }

/-- `runRemove` (`cmd/root.go`), from the point where the worktree has been
resolved: reject the main worktree, ask for confirmation, run exactly one git
removal (forced iff the `--force` flag was given), and tombstone on success;
a failed unforced removal is surfaced as an error suggesting `--force`. -/
def runRemoveCore (force confirmed removeOk forceOk : Bool) (wt : Wt) (now : Nat)
    (c : Catalog) : RemoveRun :=
  if wt.isMain then
    { outcome := .rejectedMain, gitCalls := [], catalog := c }
  else if !confirmed then
    { outcome := .cancelled, gitCalls := [], catalog := c }
  else if force then
    if forceOk then
      { outcome := .removed, gitCalls := [.removeWorktreeForce wt.path],
        catalog := SoftDeleteWorktree now wt.id c }
    else
      { outcome := .failed, gitCalls := [.removeWorktreeForce wt.path], catalog := c }
  else
    if removeOk then
      { outcome := .removed, gitCalls := [.removeWorktree wt.path],
        catalog := SoftDeleteWorktree now wt.id c }
    else
      { outcome := .failed, gitCalls := [.removeWorktree wt.path], catalog := c }

/-- `strings.ReplaceAll(branch, "/", "-")` in `runAddWithBranchFromRepo`:
since the pattern is the single character `/`, replacement is a character
map. -/
def sanitizeBranch (branch : String) : String :=
  String.mk (branch.toList.map (fun ch => if ch = '/' then '-' else ch))

/-- Go `filepath.Base` for the paths this program handles: the last path
component, after stripping trailing slashes; `"/"` for the root, `"."` for
the empty path. -/
def filepathBase (p : String) : String :=
  if p = "" then "."
  else
    let rev := p.toList.reverse.dropWhile (fun ch => ch = '/')
    if rev = [] then "/"
    else String.mk (rev.takeWhile (fun ch => ch ≠ '/')).reverse

/-- Go `filepath.Dir` for the paths this program handles: everything before
the last path component; `"/"` when only the root remains, `"."` when there
is no directory part. -/
def filepathDir (p : String) : String :=
  let rev := p.toList.reverse.dropWhile (fun ch => ch = '/')
  let rest := (rev.dropWhile (fun ch => ch ≠ '/')).dropWhile (fun ch => ch = '/')
  if rest = [] then (if p.toList.head? = some '/' then "/" else ".")
  else String.mk rest.reverse

/-- Go `filepath.Join` of two already-clean components. -/
def filepathJoin (a b : String) : String :=
  if a = "" then b
  else if b = "" then a
  else if a = "/" then a ++ b
  else a ++ "/" ++ b

/-- `GetRepoName` (`internal/git/repo.go`): the repository directory's
name. -/
def GetRepoName (repoPath : String) : String :=
  filepathBase repoPath

/-- `GetDefaultWorktreesDir` (`internal/git/repo.go`): the sibling directory
`{name}.worktrees` next to the repository. -/
def GetDefaultWorktreesDir (repoPath : String) : String :=
  filepathJoin (filepathDir repoPath) (GetRepoName repoPath ++ ".worktrees")

/-- How an add run ends. -/
inductive AddOutcome where
  | alreadyExists
  | created
  | createFailed
  deriving Repr, DecidableEq

/-- Result of an add run: the derived directory-safe name, the computed
target path, the outcome and the trace of git worktree-creation calls. -/
structure AddRun where
  dirName : String
  targetPath : String
  outcome : AddOutcome
  gitCalls : List GitCall
  deriving Repr, DecidableEq

/-- `runAddWithBranchFromRepo` (add command) from the path computation on:
sanitize the branch name, compute the target path under the repository's
worktrees directory, fail with "already exists" if the target is occupied
(`fsOccupied`), otherwise run `git.AddWorktree`'s three-tier fallback
(existing branch; new branch tracking `origin/{branch}`; new branch from
HEAD), whose per-tier success is given by the `tierNOk` parameters. -/
def runAddCore (repoPath branch : String) (fsOccupied : String → Bool)
    (tier1Ok tier2Ok tier3Ok : Bool) : AddRun :=
  let dirName := sanitizeBranch branch
  let worktreesDir := GetDefaultWorktreesDir repoPath
  let targetPath := filepathJoin worktreesDir dirName
  if fsOccupied targetPath then
    { dirName := dirName, targetPath := targetPath, outcome := .alreadyExists, gitCalls := [] }
  else if tier1Ok then
    { dirName := dirName, targetPath := targetPath, outcome := .created,
      gitCalls := [.addWorktreeTier1 targetPath] }
  else if tier2Ok then
    { dirName := dirName, targetPath := targetPath, outcome := .created,
      gitCalls := [.addWorktreeTier1 targetPath, .addWorktreeTier2 targetPath] }
  else if tier3Ok then
    { dirName := dirName, targetPath := targetPath, outcome := .created,
      gitCalls := [.addWorktreeTier1 targetPath, .addWorktreeTier2 targetPath,
                   .addWorktreeTier3 targetPath] }
  else
    { dirName := dirName, targetPath := targetPath, outcome := .createFailed,
      gitCalls := [.addWorktreeTier1 targetPath, .addWorktreeTier2 targetPath,
                   .addWorktreeTier3 targetPath] }

/-! Small concrete instances used to witness the theorems below. -/

/-- A repository's main worktree, as the selector sees it. -/
def demoMainWt : Wt :=
  { id := 1, repoId := 1, path := "/r", branch := "main", isMain := true,
    repoName := "r", repoPath := "/r" }

/-- A linked (non-main) worktree of the same repository. -/
def demoWt : Wt :=
  { id := 2, repoId := 1, path := "/r.worktrees/feat", branch := "feat", isMain := false,
    repoName := "r", repoPath := "/r" }

/-- A two-item selector list. -/
def demoWs : List Wt := [demoMainWt, demoWt]

/-- A tombstoned linked-worktree row. -/
def demoDeadRow : WorktreeRow :=
  { id := 2, repoId := 1, path := "/r.worktrees/feat", branch := "feat", isMain := false,
    createdAt := 0, deletedAt := some 3 }

/-- A catalog with a live main row and a tombstoned linked row. -/
def demoCatalog : Catalog :=
  [ { id := 1, repoId := 1, path := "/r", branch := "main", isMain := true,
      createdAt := 0, deletedAt := none },
    demoDeadRow ]

/-- A live listing with the main worktree first. -/
def demoListing : List GitWorktree :=
  [ { path := "/r", branch := "main", isMain := true },
    { path := "/r.worktrees/feat", branch := "feat", isMain := false } ]

/-- A tracked repository row. -/
def demoRepoRow : RepoRow :=
  { id := 1, path := "/r", name := "r", worktreesDir := "/r.worktrees",
    lastSyncedAt := none, createdAt := 0, deletedAt := none }

/-- A database tracking one repository with an empty worktrees table. -/
def demoDB : DB := { repos := [demoRepoRow], worktrees := [] }

/-- A listings oracle that reports `demoListing` for every repository. -/
def demoListings : String → Except String (List GitWorktree) :=
  fun _ => .ok demoListing

/-- A listings oracle that fails for every repository. -/
def demoListingsFail : String → Except String (List GitWorktree) :=
  fun _ => .error "boom"

/-! ### Catalog lemmas: `UpsertWorktree` -/

/-- Rows whose path differs from the upserted one pass through untouched. -/
theorem upsert_mem_of_ne {r : WorktreeRow} {p : String} (hne : r.path ≠ p)
    (now rid : Nat) (b : String) (mn : Bool) (c : Catalog) :
    r ∈ UpsertWorktree now rid p b mn c ↔ r ∈ c := by
  unfold UpsertWorktree
  by_cases hex : ∃ x ∈ c, x.path = p
  · rw [if_pos hex]
    constructor
    · intro hr
      rcases List.mem_map.mp hr with ⟨a, ha, hfa⟩
      by_cases hap : a.path = p
      · rw [if_pos hap] at hfa
        subst hfa
        exact absurd hap hne
      · rw [if_neg hap] at hfa
        subst hfa
        exact ha
    · intro hr
      refine List.mem_map.mpr ⟨r, hr, ?_⟩
      rw [if_neg hne]
  · rw [if_neg hex]
    rw [List.mem_append, List.mem_singleton]
    constructor
    · rintro (h | h)
      · exact h
      · subst h
        exact absurd rfl hne
    · exact Or.inl

/-- Every row carrying the upserted path ends up with the upserted fields
and a cleared tombstone. -/
theorem upsert_path_fields {r : WorktreeRow} {p : String}
    (now rid : Nat) (b : String) (mn : Bool) (c : Catalog)
    (hr : r ∈ UpsertWorktree now rid p b mn c) (hp : r.path = p) :
    r.repoId = rid ∧ r.branch = b ∧ r.isMain = mn ∧ r.deletedAt = none := by
  unfold UpsertWorktree at hr
  by_cases hex : ∃ x ∈ c, x.path = p
  · rw [if_pos hex] at hr
    rcases List.mem_map.mp hr with ⟨a, ha, hfa⟩
    by_cases hap : a.path = p
    · rw [if_pos hap] at hfa
      subst hfa
      exact ⟨rfl, rfl, rfl, rfl⟩
    · rw [if_neg hap] at hfa
      subst hfa
      exact absurd hp hap
  · rw [if_neg hex] at hr
    rcases List.mem_append.mp hr with h | h
    · exact absurd ⟨r, h, hp⟩ hex
    · rw [List.mem_singleton] at h
      subst h
      exact ⟨rfl, rfl, rfl, rfl⟩

/-- After an upsert a row with the upserted path exists. -/
theorem upsert_exists_path (now rid : Nat) (p b : String) (mn : Bool) (c : Catalog) :
    ∃ r, r ∈ UpsertWorktree now rid p b mn c ∧ r.path = p := by
  unfold UpsertWorktree
  by_cases hex : ∃ x ∈ c, x.path = p
  · rw [if_pos hex]
    rcases hex with ⟨a, ha, hap⟩
    refine ⟨_, List.mem_map.mpr ⟨a, ha, rfl⟩, ?_⟩
    rw [if_pos hap]
    exact hap
  · rw [if_neg hex]
    exact ⟨_, List.mem_append.mpr (Or.inr (List.mem_singleton.mpr rfl)), rfl⟩

/-- An upsert whose path already has exactly the upserted values is the
identity on the catalog. -/
theorem upsert_id_of_matched (now rid : Nat) (p b : String) (mn : Bool) (c : Catalog)
    (hex : ∃ r ∈ c, r.path = p)
    (hall : ∀ r ∈ c, r.path = p →
      r.repoId = rid ∧ r.branch = b ∧ r.isMain = mn ∧ r.deletedAt = none) :
    UpsertWorktree now rid p b mn c = c := by
  unfold UpsertWorktree
  rw [if_pos hex]
  have hfix : ∀ r ∈ c,
      (if r.path = p then
        { r with repoId := rid, branch := b, isMain := mn, deletedAt := none }
      else r) = id r := by
    intro r hr
    by_cases hrp : r.path = p
    · rw [if_pos hrp]
      obtain ⟨h1, h2, h3, h4⟩ := hall r hr hrp
      cases r
      simp only [id] at *
      simp_all
    · rw [if_neg hrp]
      rfl
  rw [List.map_congr_left hfix, List.map_id]

/-! ### Catalog lemmas: `SoftDeleteMissingWorktrees` -/

/-- Both branches of `SoftDeleteMissingWorktrees` are the same map (the empty
`keep` special case coincides with `NOT IN` of the empty set). -/
theorem softDeleteMissing_eq_map (now rid : Nat) (keep : List String) (c : Catalog) :
    SoftDeleteMissingWorktrees now rid keep c =
      c.map (fun r =>
        if r.repoId = rid ∧ r.deletedAt = none ∧ ¬ r.path ∈ keep then
          { r with deletedAt := some now }
        else r) := by
  unfold SoftDeleteMissingWorktrees
  cases keep with
  | nil =>
      rw [if_pos List.isEmpty_nil]
      apply List.map_congr_left
      intro r _
      simp
  | cons a as =>
      rw [if_neg (by simp [List.isEmpty])]

/-- After tombstoning by exclusion, every live row of the repository carries
one of the kept paths. -/
theorem softDeleteMissing_no_live_outside (now rid : Nat) (keep : List String) (c : Catalog) :
    ∀ r ∈ SoftDeleteMissingWorktrees now rid keep c,
      r.repoId = rid → r.deletedAt = none → r.path ∈ keep := by
  rw [softDeleteMissing_eq_map]
  intro r hr hrid hdel
  rcases List.mem_map.mp hr with ⟨a, ha, hfa⟩
  by_cases hcond : a.repoId = rid ∧ a.deletedAt = none ∧ ¬ a.path ∈ keep
  · rw [if_pos hcond] at hfa
    subst hfa
    simp at hdel
  · rw [if_neg hcond] at hfa
    subst hfa
    push_neg at hcond
    exact hcond hrid hdel

/-- A row whose path is kept passes through tombstoning-by-exclusion
untouched. -/
theorem softDeleteMissing_keeps {r : WorktreeRow} (now rid : Nat) (keep : List String)
    (c : Catalog) (hr : r ∈ c) (hp : r.path ∈ keep) :
    r ∈ SoftDeleteMissingWorktrees now rid keep c := by
  rw [softDeleteMissing_eq_map]
  refine List.mem_map.mpr ⟨r, hr, ?_⟩
  rw [if_neg]
  rintro ⟨_, _, h3⟩
  exact h3 hp

/-- When every live row of the repository already carries a kept path,
tombstoning-by-exclusion is the identity. -/
theorem softDeleteMissing_id (now rid : Nat) (keep : List String) (c : Catalog)
    (h : ∀ r ∈ c, r.repoId = rid → r.deletedAt = none → r.path ∈ keep) :
    SoftDeleteMissingWorktrees now rid keep c = c := by
  rw [softDeleteMissing_eq_map]
  have hfix : ∀ r ∈ c,
      (if r.repoId = rid ∧ r.deletedAt = none ∧ ¬ r.path ∈ keep then
        { r with deletedAt := some now }
      else r) = id r := by
    intro r hr
    rw [if_neg]
    · rfl
    · rintro ⟨h1, h2, h3⟩
      exact h3 (h r hr h1 h2)
  rw [List.map_congr_left hfix, List.map_id]

/-! ### Lemmas about the upsert loop of `syncWorktrees` -/

theorem applyUpserts_nil (now rid : Nat) (c : Catalog) :
    applyUpserts now rid [] c = c := rfl

theorem applyUpserts_cons (now rid : Nat) (g : GitWorktree) (rest : List GitWorktree)
    (c : Catalog) :
    applyUpserts now rid (g :: rest) c =
      applyUpserts now rid rest (UpsertWorktree now rid g.path g.branch g.isMain c) := rfl

/-- A single upsert preserves the presence of a live row for any path. -/
theorem hasLive_upsert {p : String} {c : Catalog} (now rid : Nat) (q b : String) (mn : Bool)
    (h : HasLive rid p c) : HasLive rid p (UpsertWorktree now rid q b mn c) := by
  by_cases hqp : q = p
  · subst hqp
    obtain ⟨r, hr, hrp⟩ := upsert_exists_path now rid q b mn c
    obtain ⟨h1, _, _, h4⟩ := upsert_path_fields now rid b mn c hr hrp
    exact ⟨r, hr, hrp, h1, h4⟩
  · obtain ⟨r, hr, hrp, h1, h2⟩ := h
    have hne : r.path ≠ q := by
      rw [hrp]
      exact fun hh => hqp hh.symm
    exact ⟨r, (upsert_mem_of_ne hne now rid b mn c).mpr hr, hrp, h1, h2⟩

/-- Upserting a path establishes a live row for it. -/
theorem hasLive_upsert_self (now rid : Nat) (p b : String) (mn : Bool) (c : Catalog) :
    HasLive rid p (UpsertWorktree now rid p b mn c) := by
  obtain ⟨r, hr, hrp⟩ := upsert_exists_path now rid p b mn c
  obtain ⟨h1, _, _, h4⟩ := upsert_path_fields now rid b mn c hr hrp
  exact ⟨r, hr, hrp, h1, h4⟩

/-- The whole upsert loop preserves the presence of a live row. -/
theorem hasLive_applyUpserts_pres {p : String} (now rid : Nat) (L : List GitWorktree)
    (c : Catalog) (h : HasLive rid p c) : HasLive rid p (applyUpserts now rid L c) := by
  induction L generalizing c with
  | nil => exact h
  | cons g rest ih =>
      rw [applyUpserts_cons]
      exact ih _ (hasLive_upsert now rid g.path g.branch g.isMain h)

/-- After the upsert loop, every listed worktree has a live row. -/
theorem hasLive_applyUpserts (now rid : Nat) (L : List GitWorktree) (c : Catalog)
    {g : GitWorktree} (hg : g ∈ L) :
    HasLive rid g.path (applyUpserts now rid L c) := by
  induction L generalizing c with
  | nil => cases hg
  | cons a rest ih =>
      rw [applyUpserts_cons]
      rcases List.mem_cons.mp hg with heq | hg'
      · subst heq
        exact hasLive_applyUpserts_pres now rid rest _
          (hasLive_upsert_self now rid g.path g.branch g.isMain c)
      · exact ih _ hg'

/-- Upserting a different path preserves agreement of all `g.path` rows with
the listing entry `g`. -/
theorem rowsMatch_upsert_ne {g : GitWorktree} {q : String} (hne : q ≠ g.path)
    (now rid : Nat) (b : String) (mn : Bool) (c : Catalog)
    (h : RowsMatch rid g c) : RowsMatch rid g (UpsertWorktree now rid q b mn c) := by
  intro r hr hrp
  have hrq : r.path ≠ q := by
    rw [hrp]
    exact fun hh => hne hh.symm
  exact h r ((upsert_mem_of_ne hrq now rid b mn c).mp hr) hrp

/-- Upserting `g` itself makes every `g.path` row agree with `g`. -/
theorem rowsMatch_upsert_self (now rid : Nat) (g : GitWorktree) (c : Catalog) :
    RowsMatch rid g (UpsertWorktree now rid g.path g.branch g.isMain c) := by
  intro r hr hrp
  exact upsert_path_fields now rid g.branch g.isMain c hr hrp

/-- A run of upserts touching only other paths preserves agreement. -/
theorem rowsMatch_applyUpserts_pres {g : GitWorktree} (now rid : Nat)
    (L : List GitWorktree) (c : Catalog)
    (hL : ∀ x ∈ L, x.path ≠ g.path) (h : RowsMatch rid g c) :
    RowsMatch rid g (applyUpserts now rid L c) := by
  induction L generalizing c with
  | nil => exact h
  | cons a rest ih =>
      rw [applyUpserts_cons]
      exact ih _ (fun x hx => hL x (List.mem_cons_of_mem a hx))
        (rowsMatch_upsert_ne (hL a (List.mem_cons_self a rest)) now rid a.branch a.isMain c h)

/-- After the upsert loop over a duplicate-free listing, every row for a
listed path agrees with its listing entry. -/
theorem rowsMatch_applyUpserts (now rid : Nat) (L : List GitWorktree) (c : Catalog)
    {g : GitWorktree} (hg : g ∈ L) (hnd : (L.map (·.path)).Nodup) :
    RowsMatch rid g (applyUpserts now rid L c) := by
  induction L generalizing c with
  | nil => cases hg
  | cons a rest ih =>
      rw [List.map_cons, List.nodup_cons] at hnd
      obtain ⟨hna, hndr⟩ := hnd
      rw [applyUpserts_cons]
      rcases List.mem_cons.mp hg with heq | hg'
      · subst heq
        apply rowsMatch_applyUpserts_pres
        · intro x hx hxp
          exact hna (hxp ▸ List.mem_map_of_mem (·.path) hx)
        · exact rowsMatch_upsert_self now rid g c
      · exact ih _ hg' hndr

/-- Tombstoning by exclusion leaves rows with kept paths agreeing with their
listing entries. -/
theorem rowsMatch_softDeleteMissing {g : GitWorktree} {keep : List String}
    (hkeep : g.path ∈ keep) (now rid : Nat) (c : Catalog)
    (h : RowsMatch rid g c) : RowsMatch rid g (SoftDeleteMissingWorktrees now rid keep c) := by
  rw [softDeleteMissing_eq_map]
  intro r hr hrp
  rcases List.mem_map.mp hr with ⟨a, ha, hfa⟩
  by_cases hcond : a.repoId = rid ∧ a.deletedAt = none ∧ ¬ a.path ∈ keep
  · rw [if_pos hcond] at hfa
    subst hfa
    exact absurd (hrp ▸ hkeep) hcond.2.2
  · rw [if_neg hcond] at hfa
    subst hfa
    exact h a ha hrp

/-! ### C1: convergence of `syncRepository` -/

/-- C1.  After `syncRepository(repo)` the set of live catalog paths owned by
the repository is exactly the set of paths in the live listing: every
observed path was upserted (inserted or resurrected) and every unobserved
live path of the repository was tombstoned. -/
theorem syncRepository_convergence (now rid : Nat) (L : List GitWorktree) (c : Catalog)
    (p : String) :
    p ∈ nonDeletedPathsFor rid (syncWorktrees now rid L c) ↔ p ∈ L.map (·.path) := by
  constructor
  · intro hp
    rcases List.mem_map.mp hp with ⟨r, hrf, hrp⟩
    rcases List.mem_filter.mp hrf with ⟨hr, hcond⟩
    obtain ⟨h1, h2⟩ := of_decide_eq_true hcond
    have hr' : r ∈ SoftDeleteMissingWorktrees now rid (L.map (fun g => g.path))
        (applyUpserts now rid L c) := hr
    have hout := softDeleteMissing_no_live_outside now rid (L.map (fun g => g.path))
      (applyUpserts now rid L c) r hr' h1 h2
    rwa [hrp] at hout
  · intro hp
    obtain ⟨g, hg, hgp⟩ := List.mem_map.mp hp
    obtain ⟨r, hr, hrp, h1, h2⟩ := hasLive_applyUpserts now rid L c hg
    have hmem : r ∈ syncWorktrees now rid L c := by
      show r ∈ SoftDeleteMissingWorktrees now rid (L.map (fun g => g.path))
        (applyUpserts now rid L c)
      exact softDeleteMissing_keeps now rid (L.map (fun g => g.path)) _ hr
        (by rw [hrp]; exact List.mem_map_of_mem (fun g => g.path) hg)
    refine List.mem_map.mpr ⟨r, List.mem_filter.mpr ⟨hmem, ?_⟩, by rw [hrp, hgp]⟩
    simp [h1, h2]

/-! ### C2: idempotence of `syncRepository` -/

/-- C2.  Re-running `syncRepository` against an unchanged live listing (whose
paths, being worktree identities, are distinct) leaves the catalog byte-for-
byte identical: the second pass re-tombstones nothing, duplicates nothing and
changes no field of any row. -/
theorem syncRepository_idempotent (t1 t2 rid : Nat) (L : List GitWorktree) (c : Catalog)
    (hnd : (L.map (·.path)).Nodup) :
    syncWorktrees t2 rid L (syncWorktrees t1 rid L c) = syncWorktrees t1 rid L c := by
  have hprops : ∀ g ∈ L, RowsMatch rid g (syncWorktrees t1 rid L c) ∧
      HasLive rid g.path (syncWorktrees t1 rid L c) := by
    intro g hg
    have hk : g.path ∈ L.map (·.path) := List.mem_map_of_mem (·.path) hg
    constructor
    · exact rowsMatch_softDeleteMissing hk t1 rid _ (rowsMatch_applyUpserts t1 rid L c hg hnd)
    · obtain ⟨r, hr, hrp, h1, h2⟩ := hasLive_applyUpserts t1 rid L c hg
      exact ⟨r, softDeleteMissing_keeps t1 rid _ _ hr (hrp ▸ hk), hrp, h1, h2⟩
  have hfold : applyUpserts t2 rid L (syncWorktrees t1 rid L c) = syncWorktrees t1 rid L c := by
    clear hnd
    generalize hs : syncWorktrees t1 rid L c = s at hprops
    clear hs
    induction L with
    | nil => rfl
    | cons a rest ih =>
        rw [applyUpserts_cons]
        obtain ⟨hRM, hHL⟩ := hprops a (List.mem_cons_self a rest)
        have hup : UpsertWorktree t2 rid a.path a.branch a.isMain s = s := by
          apply upsert_id_of_matched
          · obtain ⟨r, hr, hrp, _, _⟩ := hHL
            exact ⟨r, hr, hrp⟩
          · exact hRM
        rw [hup]
        exact ih (fun g hg => hprops g (List.mem_cons_of_mem a hg))
  have hsd : SoftDeleteMissingWorktrees t2 rid (L.map (·.path)) (syncWorktrees t1 rid L c) =
      syncWorktrees t1 rid L c := by
    apply softDeleteMissing_id
    intro r hr h1 h2
    have hr' : r ∈ SoftDeleteMissingWorktrees t1 rid (L.map (fun g => g.path))
        (applyUpserts t1 rid L c) := hr
    exact softDeleteMissing_no_live_outside t1 rid (L.map (fun g => g.path))
      (applyUpserts t1 rid L c) r hr' h1 h2
  calc syncWorktrees t2 rid L (syncWorktrees t1 rid L c)
      = SoftDeleteMissingWorktrees t2 rid (L.map (·.path))
          (applyUpserts t2 rid L (syncWorktrees t1 rid L c)) := rfl
    _ = SoftDeleteMissingWorktrees t2 rid (L.map (·.path)) (syncWorktrees t1 rid L c) := by
        rw [hfold]
    _ = syncWorktrees t1 rid L c := hsd

/-! ### C8: tombstone exclusivity -/

/-- C8.  A tombstoned row is resurrected only by an upsert whose path matches
it exactly: an upsert of any other path leaves the row untouched; an upsert
of its exact path clears the tombstone; every soft-delete operation leaves
the tombstone in place (possibly refreshing its timestamp, never clearing
it); refreshing a repository's last-synced timestamp never touches the
worktrees table; and the point lookup never returns a tombstoned row. -/
theorem tombstone_exclusive (c : Catalog) (db : DB) (now rid : Nat) (p b : String)
    (mn : Bool) (wid rid2 now2 : Nat) (keep : List String) (r : WorktreeRow) (d : Nat)
    (hr : r ∈ c) (hd : r.deletedAt = some d) :
    (p ≠ r.path → r ∈ UpsertWorktree now rid p b mn c)
    ∧ (∀ r' ∈ UpsertWorktree now rid r.path b mn c, r'.path = r.path → r'.deletedAt = none)
    ∧ (∃ r', r' ∈ SoftDeleteWorktree now2 wid c ∧ r'.id = r.id ∧ r'.path = r.path ∧
        r'.deletedAt ≠ none)
    ∧ (∃ r', r' ∈ SoftDeleteWorktreeByPath now2 p c ∧ r'.id = r.id ∧ r'.path = r.path ∧
        r'.deletedAt ≠ none)
    ∧ r ∈ SoftDeleteMissingWorktrees now2 rid2 keep c
    ∧ (UpdateLastSyncedDB now2 rid2 db).worktrees = db.worktrees
    ∧ (∀ r', GetWorktreeByPath c p = some r' → r'.deletedAt = none) := by
  refine ⟨?_, ?_, ?_, ?_, ?_, rfl, ?_⟩
  · intro hne
    exact (upsert_mem_of_ne (fun hh => hne hh.symm) now rid b mn c).mpr hr
  · intro r' hr' hp'
    exact (upsert_path_fields now rid b mn c hr' hp').2.2.2
  · unfold SoftDeleteWorktree
    refine ⟨_, List.mem_map_of_mem _ hr, ?_⟩
    by_cases h : r.id = wid
    · rw [if_pos h]
      exact ⟨rfl, rfl, by simp⟩
    · rw [if_neg h]
      exact ⟨rfl, rfl, by rw [hd]; simp⟩
  · unfold SoftDeleteWorktreeByPath
    refine ⟨_, List.mem_map_of_mem _ hr, ?_⟩
    by_cases h : r.path = p
    · rw [if_pos h]
      exact ⟨rfl, rfl, by simp⟩
    · rw [if_neg h]
      exact ⟨rfl, rfl, by rw [hd]; simp⟩
  · rw [softDeleteMissing_eq_map]
    have : (if r.repoId = rid2 ∧ r.deletedAt = none ∧ ¬ r.path ∈ keep then
        { r with deletedAt := some now2 } else r) = r := by
      rw [if_neg]
      rintro ⟨_, h2, _⟩
      rw [hd] at h2
      cases h2
    exact this ▸ List.mem_map_of_mem _ hr
  · intro r' h
    unfold GetWorktreeByPath at h
    have hmem : r' ∈ c.filter (fun x => decide (x.path = p ∧ x.deletedAt = none)) := by
      cases hf : c.filter (fun x => decide (x.path = p ∧ x.deletedAt = none)) with
      | nil =>
          rw [hf] at h
          cases h
      | cons a t =>
          rw [hf] at h
          have ha : a = r' := Option.some.inj h
          rw [← ha]
          exact List.mem_cons_self a t
    exact (of_decide_eq_true (List.mem_filter.mp hmem).2).2

/-- Witness for C8: in the demo catalog the tombstoned row passes through
tombstoning-by-exclusion untouched. -/
theorem tombstone_exclusive_witness :
    demoDeadRow ∈ SoftDeleteMissingWorktrees 9 1 ["/r"] demoCatalog :=
  (tombstone_exclusive demoCatalog demoDB 9 1 "/x" "b" false 5 1 9 ["/r"] demoDeadRow 3
    (by decide) (by decide)).2.2.2.2.1

/-! ### C7: best-effort `syncAll` -/

theorem mem_insertSorted {α : Type} {lt : α → α → Bool} {x a : α} {l : List α} :
    a ∈ insertSorted lt x l ↔ a = x ∨ a ∈ l := by
  induction l with
  | nil => simp [insertSorted]
  | cons y ys ih =>
      unfold insertSorted
      by_cases h : lt x y = true
      · rw [if_pos h]
        simp
      · rw [if_neg h]
        rw [List.mem_cons, ih, List.mem_cons]
        tauto

theorem mem_sortByLt {α : Type} {lt : α → α → Bool} {a : α} {l : List α} :
    a ∈ sortByLt lt l ↔ a ∈ l := by
  induction l with
  | nil => exact Iff.rfl
  | cons x xs ih =>
      unfold sortByLt
      rw [mem_insertSorted, ih, List.mem_cons]

/-- A listed repository is a row of the repos table. -/
theorem mem_of_mem_listRepos {db : DB} {repo : RepoRow} (h : repo ∈ ListRepos db) :
    repo ∈ db.repos :=
  (List.mem_filter.mp (mem_sortByLt.mp h)).1

/-- Each `syncAllRepos` iteration requests exactly its repository's live
listing, whether or not the request succeeds. -/
theorem syncRepoStep_attempted (listings : String → Except String (List GitWorktree))
    (now : Nat) (acc : SyncAllResult) (repo : RepoRow) :
    (syncRepoStep listings now acc repo).attempted = acc.attempted ++ [repo.path] := by
  unfold syncRepoStep
  rcases hl : listings repo.path with e | L <;> rfl

/-- The `syncAllRepos` fold requests a listing for every repository it is
given, in order. -/
theorem syncAll_fold_attempted (listings : String → Except String (List GitWorktree))
    (now : Nat) (repos : List RepoRow) (acc : SyncAllResult) :
    (repos.foldl (syncRepoStep listings now) acc).attempted =
      acc.attempted ++ repos.map (·.path) := by
  induction repos generalizing acc with
  | nil => simp
  | cons a rest ih =>
      rw [List.foldl_cons, ih, syncRepoStep_attempted]
      simp

/-- `UpdateLastSynced` preserves the presence of any repo id. -/
theorem hasRepoId_updateLastSynced {rid : Nat} {repos : List RepoRow} (now rid2 : Nat)
    (h : HasRepoId rid repos) : HasRepoId rid (UpdateLastSynced now rid2 repos) := by
  obtain ⟨r, hr, hid⟩ := h
  unfold UpdateLastSynced
  refine ⟨_, List.mem_map_of_mem _ hr, ?_⟩
  by_cases hc : r.id = rid2
  · rw [if_pos hc]
    exact hid
  · rw [if_neg hc]
    exact hid

/-- A `syncAllRepos` iteration preserves the presence of any repo id. -/
theorem hasRepoId_syncRepoStep {rid : Nat} (listings : String → Except String (List GitWorktree))
    (now : Nat) (acc : SyncAllResult) (repo : RepoRow)
    (h : HasRepoId rid acc.db.repos) : HasRepoId rid (syncRepoStep listings now acc repo).db.repos := by
  unfold syncRepoStep
  rcases hl : listings repo.path with e | L
  · exact h
  · exact hasRepoId_updateLastSynced now repo.id h

/-- `UpdateLastSynced` (within the same pass, i.e. with the same timestamp)
preserves an already-recorded last-synced mark. -/
theorem syncedAt_updateLastSynced {rid now : Nat} {repos : List RepoRow} (rid2 : Nat)
    (h : SyncedAt rid now repos) : SyncedAt rid now (UpdateLastSynced now rid2 repos) := by
  obtain ⟨r, hr, hid, hts⟩ := h
  unfold UpdateLastSynced
  refine ⟨_, List.mem_map_of_mem _ hr, ?_⟩
  by_cases hc : r.id = rid2
  · rw [if_pos hc]
    exact ⟨hid, rfl⟩
  · rw [if_neg hc]
    exact ⟨hid, hts⟩

/-- A `syncAllRepos` iteration preserves an already-recorded last-synced
mark of the same pass. -/
theorem syncedAt_syncRepoStep {rid now : Nat}
    (listings : String → Except String (List GitWorktree))
    (acc : SyncAllResult) (repo : RepoRow)
    (h : SyncedAt rid now acc.db.repos) :
    SyncedAt rid now (syncRepoStep listings now acc repo).db.repos := by
  unfold syncRepoStep
  rcases hl : listings repo.path with e | L
  · exact h
  · exact syncedAt_updateLastSynced repo.id h

/-- A successful iteration records its repository's last-synced mark. -/
theorem syncedAt_syncRepoStep_self (now : Nat)
    (listings : String → Except String (List GitWorktree))
    (acc : SyncAllResult) (repo : RepoRow) {L : List GitWorktree}
    (hok : listings repo.path = .ok L) (h : HasRepoId repo.id acc.db.repos) :
    SyncedAt repo.id now (syncRepoStep listings now acc repo).db.repos := by
  unfold syncRepoStep
  rw [hok]
  obtain ⟨r, hr, hid⟩ := h
  show SyncedAt repo.id now (UpdateLastSynced now repo.id acc.db.repos)
  unfold UpdateLastSynced
  refine ⟨_, List.mem_map_of_mem _ hr, ?_⟩
  rw [if_pos (by rw [hid])]
  exact ⟨hid, rfl⟩

/-- The rest of the fold preserves a recorded last-synced mark. -/
theorem syncedAt_syncAll_fold_pres {rid now : Nat}
    (listings : String → Except String (List GitWorktree))
    (repos : List RepoRow) (acc : SyncAllResult)
    (h : SyncedAt rid now acc.db.repos) :
    SyncedAt rid now (repos.foldl (syncRepoStep listings now) acc).db.repos := by
  induction repos generalizing acc with
  | nil => exact h
  | cons b rest ih =>
      rw [List.foldl_cons]
      exact ih _ (syncedAt_syncRepoStep listings acc b h)

/-- An iteration never discards previously collected warnings. -/
theorem warning_mem_syncRepoStep {w : String}
    (listings : String → Except String (List GitWorktree)) (now : Nat)
    (acc : SyncAllResult) (repo : RepoRow) (h : w ∈ acc.warnings) :
    w ∈ (syncRepoStep listings now acc repo).warnings := by
  unfold syncRepoStep
  rcases hl : listings repo.path with e | L
  · exact List.mem_append.mpr (Or.inl h)
  · exact h

/-- The rest of the fold never discards a collected warning. -/
theorem warning_mem_syncAll_fold_pres {w : String}
    (listings : String → Except String (List GitWorktree)) (now : Nat)
    (repos : List RepoRow) (acc : SyncAllResult) (h : w ∈ acc.warnings) :
    w ∈ (repos.foldl (syncRepoStep listings now) acc).warnings := by
  induction repos generalizing acc with
  | nil => exact h
  | cons b rest ih =>
      rw [List.foldl_cons]
      exact ih _ (warning_mem_syncRepoStep listings now acc b h)

/-- An iteration whose listing fails records that repository's warning. -/
theorem warning_mem_syncRepoStep_self {e : String}
    (listings : String → Except String (List GitWorktree)) (now : Nat)
    (acc : SyncAllResult) (repo : RepoRow) (herr : listings repo.path = .error e) :
    ("warning: failed to sync " ++ repo.name ++ ": " ++ e) ∈
      (syncRepoStep listings now acc repo).warnings := by
  unfold syncRepoStep
  rw [herr]
  exact List.mem_append.mpr (Or.inr (List.mem_singleton.mpr rfl))

/-- Over the whole fold: a repository whose listing fails has its warning in
the collected warnings, no matter how the other repositories fare. -/
theorem warning_mem_syncAll_fold {e : String}
    (listings : String → Except String (List GitWorktree)) (now : Nat)
    (repos : List RepoRow) (acc : SyncAllResult) {repo : RepoRow}
    (hmem : repo ∈ repos) (herr : listings repo.path = .error e) :
    ("warning: failed to sync " ++ repo.name ++ ": " ++ e) ∈
      (repos.foldl (syncRepoStep listings now) acc).warnings := by
  induction repos generalizing acc with
  | nil => cases hmem
  | cons a rest ih =>
      rw [List.foldl_cons]
      rcases List.mem_cons.mp hmem with heq | hmem'
      · subst heq
        exact warning_mem_syncAll_fold_pres listings now rest _
          (warning_mem_syncRepoStep_self listings now acc repo herr)
      · exact ih _ hmem'

/-- Over the whole fold: a repository whose listing succeeds ends up marked
as synced, no matter how the other repositories fare. -/
theorem syncedAt_syncAll_fold {now : Nat}
    (listings : String → Except String (List GitWorktree))
    (repos : List RepoRow) (acc : SyncAllResult) {repo : RepoRow} {L : List GitWorktree}
    (hmem : repo ∈ repos) (hok : listings repo.path = .ok L)
    (hid : HasRepoId repo.id acc.db.repos) :
    SyncedAt repo.id now (repos.foldl (syncRepoStep listings now) acc).db.repos := by
  induction repos generalizing acc with
  | nil => cases hmem
  | cons a rest ih =>
      rw [List.foldl_cons]
      rcases List.mem_cons.mp hmem with heq | hmem'
      · subst heq
        exact syncedAt_syncAll_fold_pres listings rest _
          (syncedAt_syncRepoStep_self now listings acc repo hok hid)
      · exact ih _ hmem' (hasRepoId_syncRepoStep listings now acc a hid)

/-- C7.  `syncAll` never surfaces a repository's sync failure as an aborting
error; it requests the live listing of every non-deleted repository in turn
(failures for earlier repositories do not prevent later ones from being
synced); every repository whose listing succeeds gets its last-synced
timestamp refreshed; and every repository whose listing fails has its
failure reported in the collected warnings. -/
theorem syncAll_best_effort (listings : String → Except String (List GitWorktree))
    (now : Nat) (db : DB) :
    syncAllRepos listings now db = .ok (syncAllResult listings now db)
    ∧ (syncAllResult listings now db).attempted = (ListRepos db).map (·.path)
    ∧ (∀ repo ∈ ListRepos db, ∀ L, listings repo.path = .ok L →
        SyncedAt repo.id now (syncAllResult listings now db).db.repos)
    ∧ (∀ repo ∈ ListRepos db, ∀ e, listings repo.path = .error e →
        ("warning: failed to sync " ++ repo.name ++ ": " ++ e) ∈
          (syncAllResult listings now db).warnings) := by
  refine ⟨rfl, ?_, ?_, ?_⟩
  · unfold syncAllResult
    rw [syncAll_fold_attempted]
    rfl
  · intro repo hmem L hok
    unfold syncAllResult
    exact syncedAt_syncAll_fold listings (ListRepos db) ⟨db, [], []⟩ hmem hok
      ⟨repo, mem_of_mem_listRepos hmem, rfl⟩
  · intro repo hmem e herr
    unfold syncAllResult
    exact warning_mem_syncAll_fold listings now (ListRepos db) ⟨db, [], []⟩ hmem herr

/-- Witness for C7: the demo repository is listed; when its listing succeeds
it is marked as synced at the pass's timestamp, and when its listing fails
the corresponding warning is collected. -/
theorem syncAll_best_effort_witness :
    (demoRepoRow ∈ ListRepos demoDB ∧
      SyncedAt demoRepoRow.id 7 (syncAllResult demoListings 7 demoDB).db.repos)
    ∧ ("warning: failed to sync " ++ demoRepoRow.name ++ ": " ++ "boom") ∈
        (syncAllResult demoListingsFail 7 demoDB).warnings :=
  ⟨⟨by decide,
      (syncAll_best_effort demoListings 7 demoDB).2.2.1 demoRepoRow (by decide)
        demoListing rfl⟩,
    (syncAll_best_effort demoListingsFail 7 demoDB).2.2.2 demoRepoRow (by decide)
      "boom" rfl⟩

/-! ### Selector lemmas: the fuzzy filter -/

/-- Soundness of the greedy subsequence search: a successful match means the
query is a subsequence of the candidate. -/
theorem subseqPositions_sublist {q s : List Char} {off : Nat} {ps : List Nat}
    (h : subseqPositions q s off = some ps) : q.Sublist s := by
  induction s generalizing q off ps with
  | nil =>
      cases q with
      | nil => exact List.nil_sublist []
      | cons c qs => simp [subseqPositions] at h
  | cons d ss ih =>
      cases q with
      | nil => exact List.nil_sublist (d :: ss)
      | cons c qs =>
          unfold subseqPositions at h
          by_cases hc : c = d
          · rw [if_pos hc] at h
            cases hrec : subseqPositions qs ss (off + 1) with
            | none =>
                rw [hrec] at h
                cases h
            | some ps' =>
                subst hc
                exact List.Sublist.cons₂ c (ih hrec)
          · rw [if_neg hc] at h
            exact List.Sublist.cons d (ih h)

/-- Every match produced by the scan points at an in-range candidate that
contains the query as a subsequence. -/
theorem fuzzyFindAux_sound {query : String} {strs : List String} {i : Nat} {fm : FuzzyMatch}
    (h : fm ∈ fuzzyFindAux query strs i) :
    i ≤ fm.index ∧ fm.index - i < strs.length ∧
      subseqPositions query.toList ((strs.getD (fm.index - i) "").toList) 0 =
        some fm.matchedIndexes := by
  induction strs generalizing i with
  | nil => cases h
  | cons s rest ih =>
      unfold fuzzyFindAux at h
      cases hm : subseqPositions query.toList s.toList 0 with
      | some ps =>
          rw [hm] at h
          rcases List.mem_cons.mp h with heq | h'
          · subst heq
            refine ⟨Nat.le_refl i, ?_, ?_⟩
            · simp
            · simpa using hm
          · obtain ⟨h1, h2, h3⟩ := ih h'
            refine ⟨by omega, by simp; omega, ?_⟩
            have hk : fm.index - i = (fm.index - (i + 1)) + 1 := by omega
            rw [hk, List.getD_cons_succ]
            exact h3
      | none =>
          rw [hm] at h
          obtain ⟨h1, h2, h3⟩ := ih h
          refine ⟨by omega, by simp; omega, ?_⟩
          have hk : fm.index - i = (fm.index - (i + 1)) + 1 := by omega
          rw [hk, List.getD_cons_succ]
          exact h3

/-- Membership in the matcher's output is membership in the raw scan. -/
theorem mem_fuzzyFind {query : String} {strs : List String} {fm : FuzzyMatch} :
    fm ∈ fuzzyFind query strs ↔ fm ∈ fuzzyFindAux query strs 0 :=
  mem_sortByLt

/-- The clamp step never changes the filtered list. -/
theorem clampCursor_filtered (m : PickerModel) :
    (clampCursor m).filtered = m.filtered := by
  unfold clampCursor
  split <;> rfl

/-- The filtered list after `updateFilter`: the identity mapping for an
empty query, the matcher's indices otherwise. -/
theorem updateFilter_filtered (m : PickerModel) :
    (updateFilter m).filtered =
      if m.query = "" then List.range m.worktrees.length
      else (fuzzyFind m.query (worktreeStrings m.worktrees)).map (·.index) := by
  unfold updateFilter
  rw [clampCursor_filtered]
  unfold recomputeFiltered
  split <;> rfl

/-- The composite labels list has one entry per worktree. -/
theorem worktreeStrings_length (ws : List Wt) :
    (worktreeStrings ws).length = ws.length := by
  unfold worktreeStrings
  rw [List.length_map]

/-! ### C4: filter correctness -/

/-- C4.  For the empty query the filtered index list is the identity mapping
over the full list (Catalog order preserved); for a non-empty query every
filtered index is in range and its composite label
`"{repo}/{branch}[ [main]] {path}"` contains the query's characters as a
subsequence. -/
theorem filter_correctness (m : PickerModel) (q : String) :
    (q = "" → (updateFilter { m with query := q }).filtered = List.range m.worktrees.length)
    ∧ (q ≠ "" → ∀ i ∈ (updateFilter { m with query := q }).filtered,
        i < m.worktrees.length ∧
        List.Sublist q.toList ((worktreeStrings m.worktrees).getD i "").toList) := by
  constructor
  · intro hq
    subst hq
    rw [updateFilter_filtered]
    rw [if_pos rfl]
  · intro hq i hi
    rw [updateFilter_filtered, if_neg hq] at hi
    rcases List.mem_map.mp hi with ⟨fm, hfm, hidx⟩
    obtain ⟨_, h2, h3⟩ := fuzzyFindAux_sound (mem_fuzzyFind.mp hfm)
    rw [Nat.sub_zero] at h2 h3
    subst hidx
    constructor
    · rw [← worktreeStrings_length m.worktrees]
      exact h2
    · exact subseqPositions_sublist h3

/-- Witness for C4: querying the demo list for `"feat"` keeps only the
linked worktree, whose label contains the query as a subsequence. -/
theorem filter_correctness_witness :
    (updateFilter { newPickerModel demoWs with query := "" }).filtered =
        List.range demoWs.length
    ∧ (1 < demoWs.length ∧
        List.Sublist ("feat".toList) ((worktreeStrings demoWs).getD 1 "").toList) :=
  ⟨(filter_correctness (newPickerModel demoWs) "").1 rfl,
   (filter_correctness (newPickerModel demoWs) "feat").2 (by decide) 1 (by decide)⟩

/-! ### Selector lemmas: key handling and the cursor invariant -/

theorem update_keyUp_eq (m : PickerModel) :
    m.update .keyUp = if 0 < m.cursor then { m with cursor := m.cursor - 1 } else m := rfl

theorem update_keyDown_eq (m : PickerModel) :
    m.update .keyDown =
      if m.cursor < m.filtered.length - 1 then { m with cursor := m.cursor + 1 } else m := rfl

theorem update_keyDel_eq (m : PickerModel) :
    m.update .keyDel =
      if 0 < m.filtered.length then
        (if (m.worktrees.getD (m.filtered.getD m.cursor 0) default).isMain then m
         else { m with action := .delete, quitting := true })
      else m := rfl

theorem update_keyEnter_eq (m : PickerModel) :
    m.update .keyEnter =
      if 0 < m.filtered.length then { m with action := .switch, quitting := true }
      else updateFilter m := rfl

theorem update_keyEdit_eq (m : PickerModel) (v : String) :
    m.update (.keyEdit v) = updateFilter { m with query := v } := rfl

/-- The Up arm leaves the filtered list unchanged and moves the cursor one
step towards 0, stopping there. -/
theorem update_keyUp_spec (m : PickerModel) :
    (m.update .keyUp).filtered = m.filtered ∧
      (m.update .keyUp).cursor = if 0 < m.cursor then m.cursor - 1 else m.cursor := by
  by_cases hc : 0 < m.cursor
  · rw [update_keyUp_eq, if_pos hc, if_pos hc]
    exact ⟨rfl, rfl⟩
  · rw [update_keyUp_eq, if_neg hc, if_neg hc]
    exact ⟨rfl, rfl⟩

/-- The Down arm leaves the filtered list unchanged and moves the cursor one
step towards the end, stopping at the last index. -/
theorem update_keyDown_spec (m : PickerModel) :
    (m.update .keyDown).filtered = m.filtered ∧
      (m.update .keyDown).cursor =
        if m.cursor < m.filtered.length - 1 then m.cursor + 1 else m.cursor := by
  by_cases hc : m.cursor < m.filtered.length - 1
  · rw [update_keyDown_eq, if_pos hc, if_pos hc]
    exact ⟨rfl, rfl⟩
  · rw [update_keyDown_eq, if_neg hc, if_neg hc]
    exact ⟨rfl, rfl⟩

/-- After any filter recomputation the cursor is back in range. -/
theorem updateFilter_cursor_inv (m : PickerModel) :
    (updateFilter m).filtered ≠ [] →
      (updateFilter m).cursor < (updateFilter m).filtered.length := by
  intro hne
  unfold updateFilter at hne ⊢
  generalize recomputeFiltered m = x at hne ⊢
  unfold clampCursor at hne ⊢
  by_cases h : x.filtered.length ≤ x.cursor
  · rw [if_pos h] at hne ⊢
    have hlen : x.filtered.length ≠ 0 := by
      intro h0
      exact hne (List.eq_nil_of_length_eq_zero h0)
    show max 0 (x.filtered.length - 1) < x.filtered.length
    rw [Nat.zero_max]
    omega
  · rw [if_neg h] at hne ⊢
    omega

/-- Every selector transition preserves the cursor invariant. -/
theorem update_preserves_cursor_inv (m : PickerModel) (msg : PickerMsg)
    (h : m.filtered ≠ [] → m.cursor < m.filtered.length) :
    (m.update msg).filtered ≠ [] → (m.update msg).cursor < (m.update msg).filtered.length := by
  cases msg with
  | windowSize hh => exact h
  | keyCancel => exact h
  | keyTab => exact h
  | keyDel =>
      rw [update_keyDel_eq]
      split
      · split
        · exact h
        · exact h
      · exact h
  | keyEnter =>
      rw [update_keyEnter_eq]
      split
      · exact h
      · exact updateFilter_cursor_inv m
  | keyUp =>
      by_cases hc : 0 < m.cursor
      · rw [update_keyUp_eq, if_pos hc]
        intro hne
        have hlen := h hne
        show m.cursor - 1 < m.filtered.length
        omega
      · rw [update_keyUp_eq, if_neg hc]
        exact h
  | keyDown =>
      by_cases hc : m.cursor < m.filtered.length - 1
      · rw [update_keyDown_eq, if_pos hc]
        intro _
        show m.cursor + 1 < m.filtered.length
        omega
      · rw [update_keyDown_eq, if_neg hc]
        exact h
  | keyEdit v =>
      rw [update_keyEdit_eq]
      exact updateFilter_cursor_inv _

/-- The cursor invariant holds in every reachable selector state. -/
theorem reachable_cursor_inv {ws : List Wt} {m : PickerModel} (h : PickerReachable ws m) :
    m.filtered ≠ [] → m.cursor < m.filtered.length := by
  induction h with
  | start =>
      intro hne
      show 0 < (List.range ws.length).length
      rw [List.length_range]
      have hlen : ws.length ≠ 0 := fun h0 => hne (List.range_eq_nil.mpr h0)
      omega
  | step m msg _ ih => exact update_preserves_cursor_inv m msg ih

/-! ### C9: cursor always in range, stepwise navigation, no wraparound -/

/-- C9.  In every reachable selector state with a non-empty filtered list the
cursor satisfies `cursor < len(filtered)` (it is a `Nat`, so `0 ≤ cursor`
holds by construction); the navigation keys move it by exactly one inside
`[0, len(filtered)-1]` and are no-ops at the boundaries; and every filter
recomputation clamps it back into range. -/
theorem picker_cursor_invariant (ws : List Wt) (m : PickerModel)
    (h : PickerReachable ws m) :
    (m.filtered ≠ [] → m.cursor < m.filtered.length)
    ∧ ((m.update .keyUp).filtered = m.filtered ∧
        (m.update .keyUp).cursor = if 0 < m.cursor then m.cursor - 1 else m.cursor)
    ∧ ((m.update .keyDown).filtered = m.filtered ∧
        (m.update .keyDown).cursor =
          if m.cursor < m.filtered.length - 1 then m.cursor + 1 else m.cursor)
    ∧ (∀ v, (updateFilter { m with query := v }).filtered ≠ [] →
        (updateFilter { m with query := v }).cursor <
          (updateFilter { m with query := v }).filtered.length) :=
  ⟨reachable_cursor_inv h, update_keyUp_spec m, update_keyDown_spec m,
    fun _ => updateFilter_cursor_inv _⟩

/-- Witness for C9 at the initial state over the demo list. -/
theorem picker_cursor_invariant_witness :
    (newPickerModel demoWs).cursor < (newPickerModel demoWs).filtered.length :=
  (picker_cursor_invariant demoWs (newPickerModel demoWs) PickerReachable.start).1
    (by decide)

/-! ### C5: structural protection of the main worktree -/

/-- C5.  Against a main worktree, the selector's Delete key is a no-op (the
whole state, action included, is unchanged and the loop continues), and both
the inline delete and the Remove workflow reject before confirmation: no git
call is issued and the catalog is returned untouched. -/
theorem main_worktree_protected (m : PickerModel) (wt : Wt)
    (confirmed removeOk forceOk force : Bool) (now : Nat) (c : Catalog)
    (hmain : wt.isMain = true) :
    (m.worktrees.getD (m.filtered.getD m.cursor 0) default = wt → m.update .keyDel = m)
    ∧ deleteWorktreeRun confirmed removeOk forceOk wt now c =
        { outcome := .rejectedMain, gitCalls := [], catalog := c }
    ∧ runRemoveCore force confirmed removeOk forceOk wt now c =
        { outcome := .rejectedMain, gitCalls := [], catalog := c } := by
  refine ⟨?_, ?_, ?_⟩
  · intro heq
    rw [update_keyDel_eq, heq, hmain]
    simp
  · unfold deleteWorktreeRun
    rw [if_pos hmain]
  · unfold runRemoveCore
    rw [if_pos hmain]

/-- Witness for C5: the demo main worktree is rejected by the inline delete
with no git call and an unchanged catalog. -/
theorem main_worktree_protected_witness :
    deleteWorktreeRun true true true demoMainWt 5 demoCatalog =
      { outcome := .rejectedMain, gitCalls := [], catalog := demoCatalog } :=
  (main_worktree_protected (newPickerModel demoWs) demoMainWt true true true false 5
    demoCatalog (by decide)).2.1

/-! ### C10: the empty-list selector short-circuits to Add -/

/-- C10.  Invoked on an empty worktree list, `PickWorktree` returns the Add
action with no worktree, for every possible interactive loop — i.e. without
running the loop or consuming any input. -/
theorem pickWorktree_empty (runLoop : PickerModel → PickerModel) :
    PickWorktree [] runLoop = { action := .add, worktree := none } := rfl

/-! ### C3: inline delete versus the Remove workflow -/

/-- C3 counterexample.  With a confirmed, non-main worktree whose plain git
removal fails but whose forced removal succeeds, the inline delete force-
removes and tombstones while `wt remove` (without `--force`) fails and
leaves the catalog untouched — the two sequences are not identical, and the
inline delete does not surface the failure. -/
theorem inline_delete_neq_remove :
    (deleteWorktreeRun true false true demoWt 5 demoCatalog).outcome = .removed
    ∧ (runRemoveCore false true false true demoWt 5 demoCatalog).outcome = .failed
    ∧ deleteWorktreeRun true false true demoWt 5 demoCatalog ≠
        runRemoveCore false true false true demoWt 5 demoCatalog := by
  refine ⟨rfl, rfl, ?_⟩
  decide

/-- C3 (amended).  The inline delete shares Remove's rejection and
confirmation steps and agrees with unforced Remove whenever plain removal
succeeds; when plain removal fails it automatically escalates to forced
removal instead of surfacing the failure: it tombstones if the forced
removal succeeds (where Remove reports failure without touching the
catalog), and reports failure with an untouched catalog when both removals
fail (having additionally attempted the forced removal). -/
theorem inline_delete_vs_remove (confirmed removeOk forceOk : Bool) (wt : Wt) (now : Nat)
    (c : Catalog) :
    (wt.isMain = true →
      deleteWorktreeRun confirmed removeOk forceOk wt now c =
        runRemoveCore false confirmed removeOk forceOk wt now c)
    ∧ (confirmed = false →
      deleteWorktreeRun confirmed removeOk forceOk wt now c =
        runRemoveCore false confirmed removeOk forceOk wt now c)
    ∧ (removeOk = true →
      deleteWorktreeRun confirmed removeOk forceOk wt now c =
        runRemoveCore false confirmed removeOk forceOk wt now c)
    ∧ (wt.isMain = false → confirmed = true → removeOk = false → forceOk = true →
      deleteWorktreeRun confirmed removeOk forceOk wt now c =
        { outcome := .removed,
          gitCalls := [.removeWorktree wt.path, .removeWorktreeForce wt.path],
          catalog := SoftDeleteWorktree now wt.id c }
      ∧ runRemoveCore false confirmed removeOk forceOk wt now c =
        { outcome := .failed, gitCalls := [.removeWorktree wt.path], catalog := c })
    ∧ (wt.isMain = false → confirmed = true → removeOk = false → forceOk = false →
      (deleteWorktreeRun confirmed removeOk forceOk wt now c).outcome = .failed
      ∧ (deleteWorktreeRun confirmed removeOk forceOk wt now c).catalog = c
      ∧ (runRemoveCore false confirmed removeOk forceOk wt now c).outcome = .failed
      ∧ (runRemoveCore false confirmed removeOk forceOk wt now c).catalog = c) := by
  refine ⟨?_, ?_, ?_, ?_, ?_⟩
  · intro h
    unfold deleteWorktreeRun runRemoveCore
    rw [if_pos h, if_pos h]
  · intro h
    subst h
    simp [deleteWorktreeRun, runRemoveCore]
  · intro h
    subst h
    simp [deleteWorktreeRun, runRemoveCore]
  · intro h1 h2 h3 h4
    subst h2 h3 h4
    simp [deleteWorktreeRun, runRemoveCore, h1]
  · intro h1 h2 h3 h4
    subst h2 h3 h4
    simp [deleteWorktreeRun, runRemoveCore, h1]

/-- Witness for C3's amended claim at the counterexample's environment. -/
theorem inline_delete_vs_remove_witness :
    deleteWorktreeRun true false true demoWt 5 demoCatalog =
      { outcome := .removed,
        gitCalls := [.removeWorktree demoWt.path, .removeWorktreeForce demoWt.path],
        catalog := SoftDeleteWorktree 5 demoWt.id demoCatalog }
    ∧ runRemoveCore false true false true demoWt 5 demoCatalog =
      { outcome := .failed, gitCalls := [.removeWorktree demoWt.path], catalog := demoCatalog } :=
  (inline_delete_vs_remove true false true demoWt 5 demoCatalog).2.2.2.1
    (by decide) rfl rfl rfl

/-! ### C6: the Add workflow's target path and existence check -/

/-- C6.  The Add workflow derives the directory-safe name by replacing every
path separator in the branch name with a hyphen, computes the target as
`{worktreesDir}/{safeName}` (branch `"feature/foo"` with worktrees directory
`/r.worktrees` — the default for repository path `/r` — yields
`/r.worktrees/feature-foo`), and when the target already exists on the
filesystem it fails with "already exists" having performed no git
mutation. -/
theorem add_target_and_exists (repoPath branch : String) (fsOccupied : String → Bool)
    (t1 t2 t3 : Bool) :
    (runAddCore repoPath branch fsOccupied t1 t2 t3).dirName = sanitizeBranch branch
    ∧ (runAddCore repoPath branch fsOccupied t1 t2 t3).targetPath =
        filepathJoin (GetDefaultWorktreesDir repoPath) (sanitizeBranch branch)
    ∧ sanitizeBranch "feature/foo" = "feature-foo"
    ∧ GetDefaultWorktreesDir "/r" = "/r.worktrees"
    ∧ filepathJoin "/r.worktrees" "feature-foo" = "/r.worktrees/feature-foo"
    ∧ (fsOccupied (filepathJoin (GetDefaultWorktreesDir repoPath) (sanitizeBranch branch)) =
          true →
        runAddCore repoPath branch fsOccupied t1 t2 t3 =
          { dirName := sanitizeBranch branch,
            targetPath := filepathJoin (GetDefaultWorktreesDir repoPath) (sanitizeBranch branch),
            outcome := .alreadyExists, gitCalls := [] }) := by
  refine ⟨?_, ?_, by decide, by decide, by decide, ?_⟩
  · simp only [runAddCore]
    split
    · rfl
    · split
      · rfl
      · split
        · rfl
        · split <;> rfl
  · simp only [runAddCore]
    split
    · rfl
    · split
      · rfl
      · split
        · rfl
        · split <;> rfl
  · intro h
    simp only [runAddCore]
    rw [if_pos h]

/-- Witness for C6: with branch `feature/foo` on repository `/r` and a
filesystem where the target exists, the workflow fails with "already exists"
and performs no git call. -/
theorem add_target_and_exists_witness :
    runAddCore "/r" "feature/foo" (fun _ => true) true true true =
      { dirName := sanitizeBranch "feature/foo",
        targetPath := filepathJoin (GetDefaultWorktreesDir "/r") (sanitizeBranch "feature/foo"),
        outcome := .alreadyExists, gitCalls := [] } :=
  (add_target_and_exists "/r" "feature/foo" (fun _ => true) true true true).2.2.2.2.2 rfl

/-- Witness for C2 at a concrete catalog and listing: the demo listing has
duplicate-free paths and re-syncing the demo catalog is the identity. -/
theorem syncRepository_idempotent_witness :
    (demoListing.map (·.path)).Nodup ∧
      syncWorktrees 8 1 demoListing (syncWorktrees 7 1 demoListing demoCatalog) =
        syncWorktrees 7 1 demoListing demoCatalog :=
  ⟨by decide, syncRepository_idempotent 7 8 1 demoListing demoCatalog (by decide)⟩
